import Mathlib

/-!
# Verification of the TrainMind reconstruction & metrics engine

A shallow embedding of `src/trainmind/fitfilerepair.py` (the reconstruction
and metrics core) together with proofs and refutations for the specified
properties.

Modelling conventions:
* Python floats are modelled as exact rationals (`ℚ`); Python's banker's
  rounding (`round`, round-half-to-even) is modelled by `pyRound`.
* Timestamps (`datetime` values) are modelled as rational seconds; the
  Python `int((t2 - t1).total_seconds())` truncation agrees with `Int.floor`
  on the non-negative differences arising here.
* A `random.Random(seed)` generator is modelled by the stream of values it
  produces for the successive `rng.uniform(-amp, amp)` calls: an arbitrary
  function `ℕ → ℚ` (constrained by `|draw| ≤ amp` in hypotheses where it
  matters).  The module-global `random.uniform` used by
  `build_power_series` is likewise modelled by an explicit stream argument:
  that stream is ambient process state, not derived from any caller seed.
* Python exceptions are modelled by `Option`: a raising path returns
  `none`, a normal return is `some`.
-/

/-- Python's built-in `round` (round half to even) on exact rationals,
as applied by `int(round(x))` in the source. -/
def pyRound (x : ℚ) : ℤ :=
  if x - Int.floor x < 1/2 then Int.floor x
  else if (1:ℚ)/2 < x - Int.floor x then Int.floor x + 1
  else if Int.floor x % 2 = 0 then Int.floor x else Int.floor x + 1

/-- The `clamp` helper inside `_interp_with_jitter`: clamp to the optional
inclusive `(lo, hi)` bounds, identity when no bounds are given. -/
def clampB : Option (ℚ × ℚ) → ℚ → ℚ
  | none, x => x
  | some (lo, hi), x => max lo (min hi x)

/-- One record row `(ts, hr, cad, spd)` as threaded through the pipeline. -/
structure Row where
  ts : ℚ
  hr : Option ℚ
  cad : Option ℚ
  spd : Option ℚ
deriving DecidableEq

/-- One planned interval `(label, duration_seconds, target_watts)` of the
segment plan (`SEGMENTS` in the source). -/
structure Segment where
  label : String
  dur : ℕ
  target : ℚ

/-! ## 4.1 Sensor gap-filler: `_interp_with_jitter`,
`fill_missing_hr_and_cadence` -/

/-- Indices of the known (non-`None`) values — the anchors
(`known = [i for i, v in enumerate(vals) if v is not None]`). -/
def knownIdx (vals : List (Option ℚ)) : List ℕ :=
  (List.range vals.length).filter (fun i => (vals.getD i none).isSome)

/-- Number of `None` positions strictly before `i`.  The source's three
fill loops (lead-in, interior gaps, tail) consume one `rng.uniform` draw
per `None` position, visiting the `None` positions in ascending index
order, so this is the index of the draw used at position `i`. -/
def nonesBefore (vals : List (Option ℚ)) (i : ℕ) : ℕ :=
  ((List.range i).filter (fun j => vals.getD j none = none)).length

/-- The pre-jitter base value at position `i`: hold the first anchor before
it, hold the last anchor after it, and interpolate linearly
(`va + (vb - va) * (k - a) / (b - a)`) strictly between two anchors. -/
def interpBase (vals : List (Option ℚ)) (i : ℕ) : ℚ :=
  match ((knownIdx vals).filter (fun a => a ≤ i)).getLast?,
        ((knownIdx vals).filter (fun b => i ≤ b)).head? with
  | some a, some b =>
      if a = b then (vals.getD a none).getD 0
      else (vals.getD a none).getD 0 +
        ((vals.getD b none).getD 0 - (vals.getD a none).getD 0) *
          ((i : ℚ) - (a : ℚ)) / ((b : ℚ) - (a : ℚ))
  | some a, none => (vals.getD a none).getD 0
  | none, some b => (vals.getD b none).getD 0
  | none, none => 0

/-- `_interp_with_jitter(values, jitter_amp, bounds, seed)`.  `stream n` is
the `n`-th value produced by `random.Random(seed).uniform(-jitter_amp,
jitter_amp)`; anchors are emitted as `int(round(float(v)))`, all other
positions as `int(round(clamp(base + draw)))`; with no anchors the result
is all zeros. -/
def interp_with_jitter (vals : List (Option ℚ)) (jitter_amp : ℚ)
    (bounds : Option (ℚ × ℚ)) (stream : ℕ → ℚ) : List ℤ :=
  if knownIdx vals = [] then List.replicate vals.length 0
  else
    (List.range vals.length).map (fun i =>
      match vals.getD i none with
      | some v => pyRound v
      | none => pyRound (clampB bounds (interpBase vals i + stream (nonesBefore vals i))))

/-- Number of known positions strictly before `i`: the draw index used by
the optional extra cadence jitter loop (it draws only where a cadence
value was originally present, in ascending index order). -/
def somesBefore (vals : List (Option ℚ)) (i : ℕ) : ℕ :=
  ((List.range i).filter (fun j => (vals.getD j none).isSome)).length

/-- The optional `cad_extra_jitter_everywhere` pass:
`int(max(0, min(200, round(c + j))))` at positions that originally carried
a cadence value. -/
def extraCad (cadOrig : List (Option ℚ)) (cadF : List ℤ) (stream : ℕ → ℚ) : List ℤ :=
  (List.range cadF.length).map (fun i =>
    if (cadOrig.getD i none).isSome then
      max 0 (min 200 (pyRound ((cadF.getD i 0 : ℚ) + stream (somesBefore cadOrig i))))
    else cadF.getD i 0)

/-- Reassembly loop of `fill_missing_hr_and_cadence`:
`(ts_list[i], hr_filled[i], cad_filled[i], spd_list[i])`. -/
def reassembleHC : List Row → List ℤ → List ℤ → List Row
  | r :: rs, h :: hs, c :: cs =>
      { r with hr := some (h : ℚ), cad := some (c : ℚ) } :: reassembleHC rs hs cs
  | _, _, _ => []

/-- `fill_missing_hr_and_cadence(rows, hr_jitter_bpm, cad_jitter_rpm,
cad_extra_jitter_everywhere, seed)`.  The three streams model the
generators `random.Random(seed)`, `random.Random(seed + 1)` and
`random.Random(seed + 99)` used for HR, cadence and the extra cadence
jitter respectively. -/
def fill_missing_hr_and_cadence (rows : List Row)
    (hr_jitter_bpm cad_jitter_rpm cad_extra : ℚ)
    (hrStream cadStream extraStream : ℕ → ℚ) : List Row :=
  let hrF := interp_with_jitter (rows.map Row.hr) hr_jitter_bpm (some (40, 220)) hrStream
  let cadF0 := interp_with_jitter (rows.map Row.cad) cad_jitter_rpm (some (0, 200)) cadStream
  let cadF := if cad_extra > 0 then extraCad (rows.map Row.cad) cadF0 extraStream else cadF0
  reassembleHC rows hrF cadF

/-! ## 4.2 Segment-plan power synthesizer: `build_power_series` -/

/-- The planned target wattage for elapsed second `t`, walking the segment
plan by cumulative duration (the dense per-second loop of
`build_power_series` writes exactly this segment's target into cell `t`). -/
def segTarget : List Segment → ℕ → ℚ
  | [], _ => 0
  | sg :: rest, t => if t < sg.dur then sg.target else segTarget rest (t - sg.dur)

/-- Effect-free rendering of a loop that can raise: `none` as soon as `f`
fails on an element. -/
def mapOptionL (f : α → Option β) : List α → Option (List β)
  | [] => some []
  | x :: xs =>
    match f x with
    | none => none
    | some y => (mapOptionL f xs).map (fun ys => y :: ys)

/-- `build_power_series(rows, start_ts)` with the segment plan and the
module-global `random.uniform(-POWER_JITTER_W, POWER_JITTER_W)` draw
stream made explicit.  The dense per-second loop consumes one global draw
per written cell, in cell order, so cell `i` receives draw `stream i`.
Raising paths return `none`: the explicit empty-`rows` check, and the
`SEGMENTS[-1]` indexing (resp. `np.zeros` on a negative length) when a
row's second index falls outside the usable range and the plan is empty
(resp. when the recording span is negative). -/
def build_power_series (rows : List Row) (segs : List Segment)
    (stream : ℕ → ℚ) : Option (List (ℚ × ℚ) × ℤ) :=
  match rows with
  | [] => none
  | r0 :: rest =>
    let first := r0.ts
    let lastTs := (((r0 :: rest).getLast?).getD r0).ts
    let totalSecs : ℤ := Int.floor (lastTs - first) + 1
    let plannedSecs : ℤ := (segs.map (fun sg => (sg.dur : ℤ))).sum
    let usable : ℤ := min totalSecs plannedSecs
    if usable < 0 then none
    else
      (mapOptionL (fun r =>
        if 0 ≤ Int.floor (r.ts - first) ∧ Int.floor (r.ts - first) < usable then
          some (r.ts, max 0 (segTarget segs (Int.floor (r.ts - first)).toNat +
            stream (Int.floor (r.ts - first)).toNat))
        else
          (segs.getLast?).map (fun sg => (r.ts, sg.target))) (r0 :: rest)).map
        (fun l => (l, usable))

/-! ## 4.3 Power→speed physical model: `power_to_speed_flat` and the
time-weighted smoothing pass of `apply_speed_from_power` -/

/-- `g = 9.80665`. -/
def gconst : ℚ := 980665/100000

/-- The inner `resistive_power(v)` closure: rolling + gravity + aero power
at candidate speed `v` (`cos_th = 1.0`, `sin_th = grade`). -/
def resistive_power (mass cda crr rho grade v : ℚ) : ℚ :=
  v * (crr * mass * gconst * 1) + v * (mass * gconst * grade) +
    1/2 * rho * cda * v^3

/-- The bracket-expansion loop
`while resistive_power(hi) < p_wheel and hi < 60.0: hi *= 1.5 if hi > 0
else 1.0; hi = max(hi, 5.0)`.  The loop always terminates (after one pass
`hi ≥ 5` and it grows by a factor 1.5 while below 60, so at most 9 passes
run); the fuel argument, instantiated with 64, is never exhausted. -/
def expandHi (mass cda crr rho grade pw : ℚ) : ℕ → ℚ → ℚ
  | 0, hi => hi
  | fuel+1, hi =>
    if resistive_power mass cda crr rho grade hi < pw ∧ hi < 60 then
      expandHi mass cda crr rho grade pw fuel (max (if hi > 0 then hi * (3/2) else hi) 5)
    else hi

/-- The fixed-budget bisection loop (`for _ in range(60)`). -/
def bisectIter (mass cda crr rho grade pw : ℚ) : ℕ → ℚ × ℚ → ℚ × ℚ
  | 0, s => s
  | n+1, (lo, hi) =>
    if resistive_power mass cda crr rho grade ((lo + hi)/2) > pw then
      bisectIter mass cda crr rho grade pw n (lo, (lo + hi)/2)
    else
      bisectIter mass cda crr rho grade pw n ((lo + hi)/2, hi)

/-- `power_to_speed_flat(p_w, mass_kg, cda_m2, crr, rho, drivetrain_eff,
grade, v_max)`: `0` for non-positive power, otherwise the midpoint of the
final bisection bracket over `[0, expanded v_max]` for
`p_wheel = p_w * drivetrain_eff`. -/
def power_to_speed_flat (p_w mass cda crr rho eff grade vmax : ℚ) : ℚ :=
  if p_w ≤ 0 then 0
  else
    let pw := p_w * eff
    let s := bisectIter mass cda crr rho grade pw 60
      (0, expandHi mass cda crr rho grade pw 64 vmax)
    (s.1 + s.2) / 2

/-- `time_to_power.get(ts, ...)` on the association-list model of the
Python dict (keys are distinct in the pipeline). -/
def lookupTs : List (ℚ × ℚ) → ℚ → Option ℚ
  | [], _ => none
  | (a, b) :: rest, t => if a = t then some b else lookupTs rest t

/-- The per-sample Δt sequence: `1.0` for the first sample (`i == 0`),
`(ts - last_t).total_seconds()` afterwards. -/
def dtsL : List Row → List ℚ
  | [] => []
  | r :: rest => 1 :: List.zipWith (fun a b => b.ts - a.ts) (r :: rest) rest

/-- `sum(v*dt for v, dt in buf)`. -/
def weightedSum (buf : List (ℚ × ℚ)) : ℚ :=
  (buf.map (fun p => p.1 * p.2)).sum

/-- The window-shrinking loop `while acc_time > smooth_window_s and
len(buf) > 1`: pop the oldest bucket whole while that keeps at least the
window covered, otherwise cut the oldest bucket down to
`(v0 * (dt0 - keep) / dt0, dt0 - keep)` with `keep = acc_time - W` and
stop with `acc_time = W`. -/
def trimLoop (W : ℚ) : List (ℚ × ℚ) → ℚ → List (ℚ × ℚ) × ℚ
  | [], acc => ([], acc)
  | (v0, dt0) :: rest, acc =>
    if acc > W ∧ rest ≠ [] then
      if acc - dt0 ≥ W then trimLoop W rest (acc - dt0)
      else ((v0 * (dt0 - (acc - W)) / dt0, dt0 - (acc - W)) :: rest, W)
    else ((v0, dt0) :: rest, acc)

/-- The smoothing scan of `apply_speed_from_power`: push `(v_raw[i], dt)`,
shrink the window, then emit the Δt-weighted mean (or the raw value when
the accumulated time is not positive). -/
def smoothGo (W : ℚ) : List (ℚ × ℚ) → List (ℚ × ℚ) → ℚ → List ℚ
  | [], _, _ => []
  | (v, dt) :: rest, buf, acc =>
    (if (trimLoop W (buf ++ [(v, dt)]) (acc + dt)).2 > 0 then
      weightedSum (trimLoop W (buf ++ [(v, dt)]) (acc + dt)).1 /
        (trimLoop W (buf ++ [(v, dt)]) (acc + dt)).2
     else v) ::
      smoothGo W rest (trimLoop W (buf ++ [(v, dt)]) (acc + dt)).1
        (trimLoop W (buf ++ [(v, dt)]) (acc + dt)).2

/-- `apply_speed_from_power(rows, time_to_power, ...)`: raw speeds from the
physical model (power defaulting to `0.0` for timestamps missing from the
map, `v_max` left at its default 25), then the time-weighted smoothing
pass, then the rows with `spd` overwritten.  On an empty `rows` the source
raises (`last_t = ts_list[0]` is an `IndexError`), modelled by `none`. -/
def apply_speed_from_power (rows : List Row) (ttp : List (ℚ × ℚ))
    (mass cda crr rho eff grade W : ℚ) : Option (List Row) :=
  match rows with
  | [] => none
  | _ :: _ =>
    let vraw := rows.map (fun r =>
      power_to_speed_flat ((lookupTs ttp r.ts).getD 0) mass cda crr rho eff grade 25)
    let vs := smoothGo W (List.zip vraw (dtsL rows)) [] 0
    some (List.zipWith (fun r v => { r with spd := some v }) rows vs)

/-- The trim step as claimed by the specification sentence under test for
the smoothing pass: the oldest partial contribution keeps its value and
only its Δt share is reduced. -/
def trimLoopClaim (W : ℚ) : List (ℚ × ℚ) → ℚ → List (ℚ × ℚ) × ℚ
  | [], acc => ([], acc)
  | (v0, dt0) :: rest, acc =>
    if acc > W ∧ rest ≠ [] then
      if acc - dt0 ≥ W then trimLoopClaim W rest (acc - dt0)
      else ((v0, dt0 - (acc - W)) :: rest, W)
    else ((v0, dt0) :: rest, acc)

/-- The smoothing scan as described by the claim (value-preserving trim). -/
def smoothGoClaim (W : ℚ) : List (ℚ × ℚ) → List (ℚ × ℚ) → ℚ → List ℚ
  | [], _, _ => []
  | (v, dt) :: rest, buf, acc =>
    (if (trimLoopClaim W (buf ++ [(v, dt)]) (acc + dt)).2 > 0 then
      weightedSum (trimLoopClaim W (buf ++ [(v, dt)]) (acc + dt)).1 /
        (trimLoopClaim W (buf ++ [(v, dt)]) (acc + dt)).2
     else v) ::
      smoothGoClaim W rest (trimLoopClaim W (buf ++ [(v, dt)]) (acc + dt)).1
        (trimLoopClaim W (buf ++ [(v, dt)]) (acc + dt)).2

/-- `apply_speed_from_power` as the claim describes its smoothing pass
(identical pipeline, value-preserving trim). -/
def apply_speed_claim (rows : List Row) (ttp : List (ℚ × ℚ))
    (mass cda crr rho eff grade W : ℚ) : Option (List Row) :=
  match rows with
  | [] => none
  | _ :: _ =>
    let vraw := rows.map (fun r =>
      power_to_speed_flat ((lookupTs ttp r.ts).getD 0) mass cda crr rho eff grade 25)
    let vs := smoothGoClaim W (List.zip vraw (dtsL rows)) [] 0
    some (List.zipWith (fun r v => { r with spd := some v }) rows vs)

/-- The trim step with the amended wording: both the stored value and its
Δt share of the oldest bucket are scaled by the kept fraction
`(dt0 - keep) / dt0` of its time share. -/
def trimLoopSpec (W : ℚ) : List (ℚ × ℚ) → ℚ → List (ℚ × ℚ) × ℚ
  | [], acc => ([], acc)
  | (v0, dt0) :: rest, acc =>
    if acc > W ∧ rest ≠ [] then
      if acc - dt0 ≥ W then trimLoopSpec W rest (acc - dt0)
      else ((v0 * ((dt0 - (acc - W)) / dt0), dt0 * ((dt0 - (acc - W)) / dt0)) :: rest, W)
    else ((v0, dt0) :: rest, acc)

/-- One step of the amended smoothing description, in accumulator-passing
form: state is (reversed outputs, queue, accumulated time). -/
def smoothStep (W : ℚ) (st : List ℚ × List (ℚ × ℚ) × ℚ) (pr : ℚ × ℚ) :
    List ℚ × List (ℚ × ℚ) × ℚ :=
  ((if (trimLoopSpec W (st.2.1 ++ [pr]) (st.2.2 + pr.2)).2 > 0 then
      weightedSum (trimLoopSpec W (st.2.1 ++ [pr]) (st.2.2 + pr.2)).1 /
        (trimLoopSpec W (st.2.1 ++ [pr]) (st.2.2 + pr.2)).2
    else pr.1) :: st.1,
   (trimLoopSpec W (st.2.1 ++ [pr]) (st.2.2 + pr.2)).1,
   (trimLoopSpec W (st.2.1 ++ [pr]) (st.2.2 + pr.2)).2)

/-- The amended smoothing description as a left fold. -/
def smoothAmended (W : ℚ) (pairs : List (ℚ × ℚ)) : List ℚ :=
  (pairs.foldl (smoothStep W) ([], [], 0)).1.reverse

/-- The full speed stage under the amended description of its smoothing
pass. -/
def apply_speed_amended (rows : List Row) (ttp : List (ℚ × ℚ))
    (mass cda crr rho eff grade W : ℚ) : Option (List Row) :=
  match rows with
  | [] => none
  | _ :: _ =>
    let vraw := rows.map (fun r =>
      power_to_speed_flat ((lookupTs ttp r.ts).getD 0) mass cda crr rho eff grade 25)
    let vs := smoothAmended W (List.zip vraw (dtsL rows))
    some (List.zipWith (fun r v => { r with spd := some v }) rows vs)

/-! ## 4.4 Metrics engine: `estimate_kcal`, `_power_1s_array`, the
best-20-minute power of `compute_np_if_tss_and_p20`, and
`_cum_dist_from_rows` -/

/-- The summation loop of `estimate_kcal`:
`total_j += max(prev_p, 0.0) * dt` over consecutive timestamp pairs,
carrying `(prev_ts, prev_p)`. -/
def kcalLoop : ℚ × ℚ → List (ℚ × ℚ) → ℚ
  | _, [] => 0
  | (pt, pp), (t, p) :: rest => max pp 0 * (t - pt) + kcalLoop (t, p) rest

/-- `estimate_kcal(time_to_power, eff_metabolic)` on the sorted item list
of the map (`sorted(time_to_power.items())`):
`int(round(total_j / 1000 / eff / 4.184))`, `0` for an empty map. -/
def estimate_kcal (items : List (ℚ × ℚ)) (eff : ℚ) : ℤ :=
  match items with
  | [] => 0
  | first :: rest => pyRound (kcalLoop first rest / 1000 / eff / (4184/1000))

/-- Elementwise rendering of the numpy slice assignment `P[i:j] = v`. -/
def setRangeQ (l : List ℚ) (i j : ℤ) (v : ℚ) : List ℚ :=
  l.mapIdx (fun k x => if i ≤ (k : ℤ) ∧ (k : ℤ) < j then v else x)

/-- `P[-1] = v` on a nonempty array. -/
def setLastQ (l : List ℚ) (v : ℚ) : List ℚ :=
  match l with
  | [] => []
  | _ :: _ => l.dropLast ++ [v]

/-- `_power_1s_array(time_to_power)` on the sorted item list: the
1-second-resolution piecewise-constant resampling over
`[t0, tN]` (length `int((tN - t0).total_seconds()) + 1`), with the final
cell set to the last known value. -/
def power1s (items : List (ℚ × ℚ)) : List ℚ :=
  match items with
  | [] => []
  | (t0, p0) :: rest =>
    let tN := (((t0, p0) :: rest).getLast?).getD (t0, p0)
    let n := (Int.floor (tN.1 - t0) + 1).toNat
    let pairs := ((t0, p0) :: rest).zip (rest ++ [(tN.1, 0)])
    setLastQ
      (pairs.foldl (fun acc pr =>
        setRangeQ acc (Int.floor (pr.1.1 - t0)) (Int.floor (pr.2.1 - t0)) pr.1.2)
        (List.replicate n 0))
      tN.2

/-- `np.cumsum(np.insert(P, 0, 0.0))`: running prefix sums starting from
`a`. -/
def csumFrom (a : ℚ) : List ℚ → List ℚ
  | [] => [a]
  | x :: xs => a :: csumFrom (a + x) xs

/-- Elementwise rendering of `(csum[w:] - csum[:-w]) / w`. -/
def rollList (P : List ℚ) (w : ℕ) : List ℚ :=
  (List.range (P.length + 1 - w)).map (fun k =>
    ((csumFrom 0 P).getD (k + w) 0 - (csumFrom 0 P).getD k 0) / (w : ℚ))

/-- `np.max` on a nonempty array (the code only applies it to one). -/
def npMax : List ℚ → ℚ
  | [] => 0
  | x :: xs => xs.foldl max x

/-- `np.mean`. -/
def meanQ (P : List ℚ) : ℚ := P.sum / (P.length : ℚ)

/-- The best-20-minute-power component of `compute_np_if_tss_and_p20`:
`0` for an empty resampled array, the whole-array mean when shorter than
`w = 1200` seconds, otherwise the maximum of the prefix-sum sliding-window
means. -/
def best20 (items : List (ℚ × ℚ)) : ℚ :=
  if (power1s items).length = 0 then 0
  else if (power1s items).length < 1200 then meanQ (power1s items)
  else npMax (rollList (power1s items) 1200)

/-- The claim's description of the same metric: the maximum over all
contiguous 1200-second windows of the direct window means. -/
def windowMeans (P : List ℚ) (w : ℕ) : List ℚ :=
  (List.range (P.length + 1 - w)).map (fun k => ((P.drop k).take w).sum / (w : ℚ))

/-- The claim-side best-20-minute power: direct window means (mean of the
whole array when it is shorter than the window). -/
def best20Spec (items : List (ℚ × ℚ)) : ℚ :=
  if (power1s items).length < 1200 then meanQ (power1s items)
  else npMax (windowMeans (power1s items) 1200)

/-- The accumulation loop of `_cum_dist_from_rows`, state
`(dist, moving_time, v_max)` with `last_t` threaded separately; `vv` is
`float(v or 0.0)`. -/
def cumGo : ℚ → ℚ × ℚ × ℚ → List Row → ℚ × ℚ × ℚ
  | _, st, [] => st
  | lastT, (dist, mov, vmax), r :: rest =>
    cumGo r.ts
      (dist + max 0 (r.spd.getD 0) * max 0 (r.ts - lastT),
       mov + (if r.spd.getD 0 > 1/2 then r.ts - lastT else 0),
       max vmax (r.spd.getD 0)) rest

/-- `_cum_dist_from_rows(rows)`: `(dist, total_time, moving_time, v_max)`;
`(0.0, 0.0, 0.0, 0.0)` for empty input (the early return — no raise). -/
def cum_dist_from_rows (rows : List Row) : ℚ × ℚ × ℚ × ℚ :=
  match rows with
  | [] => (0, 0, 0, 0)
  | r0 :: rest =>
    ((cumGo r0.ts (0, 0, max 0 (r0.spd.getD 0)) rest).1,
     (((r0 :: rest).getLast?).getD r0).ts - r0.ts,
     (cumGo r0.ts (0, 0, max 0 (r0.spd.getD 0)) rest).2.1,
     (cumGo r0.ts (0, 0, max 0 (r0.spd.getD 0)) rest).2.2)

/-! ## Helper lemmas -/

theorem bisectIter_bounds (mass cda crr rho grade pw : ℚ) :
    ∀ (n : ℕ) (lo hi : ℚ), 0 ≤ lo → lo ≤ hi →
      0 ≤ (bisectIter mass cda crr rho grade pw n (lo, hi)).1 ∧
      (bisectIter mass cda crr rho grade pw n (lo, hi)).1 ≤
        (bisectIter mass cda crr rho grade pw n (lo, hi)).2 ∧
      (bisectIter mass cda crr rho grade pw n (lo, hi)).2 ≤ hi := by
  intro n
  induction n with
  | zero => intro lo hi h0 hle; exact ⟨h0, hle, le_rfl⟩
  | succ n ih =>
    intro lo hi h0 hle
    rw [bisectIter]
    split_ifs with h
    · have h2 := ih lo ((lo + hi)/2) h0 (by linarith)
      exact ⟨h2.1, h2.2.1, le_trans h2.2.2 (by linarith)⟩
    · have h2 := ih ((lo + hi)/2) hi (by linarith) (by linarith)
      exact h2

theorem bisectIter_hi_inv (mass cda crr rho grade pw : ℚ) :
    ∀ (n : ℕ) (lo hi : ℚ), lo ≤ hi →
      pw < resistive_power mass cda crr rho grade hi →
      pw < resistive_power mass cda crr rho grade
        (bisectIter mass cda crr rho grade pw n (lo, hi)).2 ∧
      (bisectIter mass cda crr rho grade pw n (lo, hi)).2 -
        (bisectIter mass cda crr rho grade pw n (lo, hi)).1 = (hi - lo) / 2^n := by
  intro n
  induction n with
  | zero => intro lo hi _ hhi; exact ⟨hhi, by simp [bisectIter]⟩
  | succ n ih =>
    intro lo hi hle hhi
    rw [bisectIter]
    split_ifs with h
    · have h2 := ih lo ((lo + hi)/2) (by linarith) h
      refine ⟨h2.1, ?_⟩
      rw [h2.2, pow_succ]
      ring
    · have h2 := ih ((lo + hi)/2) hi (by linarith) hhi
      refine ⟨h2.1, ?_⟩
      rw [h2.2, pow_succ]
      ring

theorem resistive_strictMono_default :
    ∀ a b : ℚ, 0 ≤ a → a < b →
      resistive_power 80 (8/25) (1/250) (49/40) 0 a <
        resistive_power 80 (8/25) (1/250) (49/40) 0 b := by
  intro a b ha hab
  have hb : 0 < b := lt_of_le_of_lt ha hab
  have h1 : 0 < a^2 + a*b + b^2 := by nlinarith
  simp only [resistive_power, gconst]
  nlinarith [mul_pos (sub_pos.2 hab) h1]

theorem expandHi_le (mass cda crr rho grade pw : ℚ) :
    ∀ (fuel : ℕ) (hi : ℚ), expandHi mass cda crr rho grade pw fuel hi ≤ max hi 90 := by
  intro fuel
  induction fuel with
  | zero => intro hi; exact le_max_left _ _
  | succ fuel ih =>
    intro hi
    rw [expandHi]
    by_cases h : resistive_power mass cda crr rho grade hi < pw ∧ hi < 60
    · rw [if_pos h]
      refine le_trans (ih _) (le_trans (le_of_eq (max_eq_right ?_)) (le_max_right _ _))
      refine max_le ?_ (by norm_num)
      by_cases h2 : hi > 0
      · rw [if_pos h2]; nlinarith [h.2]
      · rw [if_neg h2]; push_neg at h2; linarith
    · rw [if_neg h]
      exact le_max_left _ _

theorem expandHi_nonneg (mass cda crr rho grade pw : ℚ) :
    ∀ (fuel : ℕ) (hi : ℚ), 0 ≤ hi → 0 ≤ expandHi mass cda crr rho grade pw fuel hi := by
  intro fuel
  induction fuel with
  | zero => intro hi h; exact h
  | succ fuel ih =>
    intro hi h
    rw [expandHi]
    by_cases hc : resistive_power mass cda crr rho grade hi < pw ∧ hi < 60
    · rw [if_pos hc]
      exact ih _ (le_trans (by norm_num : (0:ℚ) ≤ 5) (le_max_right _ 5))
    · rw [if_neg hc]
      exact h

/-! ## Claim C3 -/

/-- C3, counterexample: the claim asserts the root-find always returns a
best estimate within the capped interval `[0, 60]`; at input power
100000 W with the documented default parameters the returned speed
exceeds 60 m/s (the bound expansion multiplies by 1.5, not 2, stops only
once the bound is no longer below 60, and leaves the final bracket at
675/8 = 84.375). -/
theorem c3_counterexample :
    ¬ (power_to_speed_flat 100000 80 (8/25) (1/250) (49/40) (39/40) 0 25 ≤ 60) := by
  have hexp : expandHi 80 (8/25) (1/250) (49/40) 0 (100000 * (39/40)) 64 25 = 675/8 := by
    norm_num [expandHi, resistive_power, gconst]
  have hbd := bisectIter_bounds 80 (8/25) (1/250) (49/40) 0 (100000 * (39/40)) 60 0 (675/8)
    le_rfl (by norm_num)
  have hinv := bisectIter_hi_inv 80 (8/25) (1/250) (49/40) 0 (100000 * (39/40)) 60 0 (675/8)
    (by norm_num) (by norm_num [resistive_power, gconst])
  simp only [power_to_speed_flat, hexp]
  rw [if_neg (by norm_num : ¬ ((100000:ℚ) ≤ 0))]
  set s := bisectIter 80 (8/25) (1/250) (49/40) 0 (100000 * (39/40)) 60 (0, 675/8) with hs
  have h75 : (75:ℚ) < s.2 := by
    by_contra hle
    push_neg at hle
    have hmono : resistive_power 80 (8/25) (1/250) (49/40) 0 s.2 ≤
        resistive_power 80 (8/25) (1/250) (49/40) 0 75 := by
      rcases lt_or_eq_of_le hle with h | h
      · exact le_of_lt (resistive_strictMono_default _ _ (le_trans hbd.1 hbd.2.1) h)
      · rw [h]
    have hval : resistive_power 80 (8/25) (1/250) (49/40) 0 75 < 100000 * (39/40) := by
      norm_num [resistive_power, gconst]
    linarith [hinv.1]
  have hgap : s.2 - s.1 = ((675:ℚ)/8 - 0) / 2^60 := hinv.2
  have hsmall : ((675:ℚ)/8 - 0) / 2^60 ≤ 30 := by norm_num
  push_neg
  linarith

/-- C3, amended: when the initial bracket `max_speed_mps` is insufficient
the upper bound is multiplied by 1.5 (with a floor of 5 m/s), the
expansion stopping once the bound is no longer below 60 m/s — so the
final bound may exceed 60 (by up to a factor 1.5) — and bisection then
proceeds on that interval, never raising and always returning a best
estimate within `[0, max(max_speed_mps, 90)]`. -/
theorem c3_amended (p mass cda crr rho eff grade vmax : ℚ) (hv : 0 ≤ vmax) :
    0 ≤ power_to_speed_flat p mass cda crr rho eff grade vmax ∧
      power_to_speed_flat p mass cda crr rho eff grade vmax ≤ max vmax 90 := by
  unfold power_to_speed_flat
  split_ifs with hp
  · exact ⟨le_rfl, le_trans (by norm_num) (le_max_right vmax 90)⟩
  · have hexp0 : 0 ≤ expandHi mass cda crr rho grade (p * eff) 64 vmax :=
      expandHi_nonneg _ _ _ _ _ _ _ _ hv
    have hexple := expandHi_le mass cda crr rho grade (p * eff) 64 vmax
    have hbd := bisectIter_bounds mass cda crr rho grade (p * eff) 60 0
      (expandHi mass cda crr rho grade (p * eff) 64 vmax) le_rfl hexp0
    constructor
    · linarith [hbd.1, hbd.2.1]
    · linarith [hbd.1, hbd.2.1, hbd.2.2]

/-- Witness for `c3_amended` at concrete input. -/
theorem c3_witness :
    (0:ℚ) ≤ 25 ∧
      0 ≤ power_to_speed_flat 100 80 (8/25) (1/250) (49/40) (39/40) 0 25 ∧
      power_to_speed_flat 100 80 (8/25) (1/250) (49/40) (39/40) 0 25 ≤ max 25 90 :=
  ⟨by norm_num, (c3_amended 100 80 (8/25) (1/250) (49/40) (39/40) 0 25 (by norm_num)).1,
   (c3_amended 100 80 (8/25) (1/250) (49/40) (39/40) 0 25 (by norm_num)).2⟩

theorem bisectIter_all_lo (mass cda crr rho grade : ℚ) (H : ℚ)
    (hmono : ∀ a b : ℚ, 0 ≤ a → a < b →
      resistive_power mass cda crr rho grade a < resistive_power mass cda crr rho grade b) :
    ∀ (n : ℕ) (lo : ℚ), 0 ≤ lo → lo ≤ H →
      bisectIter mass cda crr rho grade (resistive_power mass cda crr rho grade H) n (lo, H) =
        (H - (H - lo) / 2^n, H) := by
  intro n
  induction n with
  | zero =>
    intro lo _ _
    have h1 : H - (H - lo) / 2^0 = lo := by norm_num
    rw [bisectIter, h1]
  | succ n ih =>
    intro lo h0 hle
    rw [bisectIter]
    have hmid : ¬ (resistive_power mass cda crr rho grade ((lo + H)/2) >
        resistive_power mass cda crr rho grade H) := by
      rcases lt_or_eq_of_le hle with h | h
      · exact not_lt.2 (le_of_lt (hmono _ _ (by linarith) (by linarith)))
      · subst h
        have h2 : (lo + lo)/2 = lo := by ring
        rw [h2]
        exact lt_irrefl _
    rw [if_neg hmid, ih ((lo + H)/2) (by linarith) (by linarith)]
    have h3 : H - (H - (lo + H)/2) / 2^n = H - (H - lo) / 2^(n+1) := by
      rw [pow_succ]; ring
    rw [h3]

theorem bisectIter_cell (mass cda crr rho grade root span : ℚ)
    (hspan : 0 ≤ span)
    (hmono : ∀ a b : ℚ, 0 ≤ a → a < b →
      resistive_power mass cda crr rho grade a < resistive_power mass cda crr rho grade b)
    (hnomid : ∀ (k : ℕ) (j : ℕ), k ≤ 60 → root ≠ span * (2 * (j:ℚ) + 1) / 2^k) :
    ∀ (n k : ℕ) (j : ℕ), n + k ≤ 60 →
      0 ≤ span * (j:ℚ) / 2^k →
      span * (j:ℚ) / 2^k < root → root < span * ((j:ℚ)+1) / 2^k →
      ∃ j' : ℕ,
        bisectIter mass cda crr rho grade (resistive_power mass cda crr rho grade root) n
          (span * (j:ℚ) / 2^k, span * ((j:ℚ)+1) / 2^k) =
          (span * ((j':ℕ):ℚ) / 2^(k+n), span * (((j':ℕ):ℚ)+1) / 2^(k+n)) ∧
        span * ((j':ℕ):ℚ) / 2^(k+n) < root ∧ root < span * (((j':ℕ):ℚ)+1) / 2^(k+n) ∧
        0 ≤ span * ((j':ℕ):ℚ) / 2^(k+n) := by
  intro n
  induction n with
  | zero =>
    intro k j _ h0 hlo hhi
    exact ⟨j, by simp [bisectIter], by simpa using hlo, by simpa using hhi, by simpa using h0⟩
  | succ n ih =>
    intro k j hn h0 hlo hhi
    rw [bisectIter]
    have hroot0 : 0 ≤ root := le_trans h0 (le_of_lt hlo)
    have hmid_eq : (span * (j:ℚ) / 2^k + span * ((j:ℚ)+1) / 2^k) / 2 =
        span * (2*(j:ℚ)+1) / 2^(k+1) := by
      rw [pow_succ]; ring
    have hne : root ≠ span * (2*(j:ℚ)+1) / 2^(k+1) := hnomid (k+1) j (by omega)
    have hkn : k + (n+1) = (k+1) + n := by omega
    rcases lt_or_gt_of_ne hne with hrm | hrm
    · -- root below the midpoint: the bisection keeps the lower half
      have hcond : resistive_power mass cda crr rho grade
          ((span * (j:ℚ) / 2^k + span * ((j:ℚ)+1) / 2^k) / 2) >
          resistive_power mass cda crr rho grade root := by
        rw [hmid_eq]
        exact hmono _ _ hroot0 hrm
      rw [if_pos hcond]
      have e1 : span * (j:ℚ) / 2^k = span * (((2*j : ℕ)):ℚ) / 2^(k+1) := by
        push_cast; rw [pow_succ]; ring
      have e2 : (span * (j:ℚ) / 2^k + span * ((j:ℚ)+1) / 2^k) / 2 =
          span * ((((2*j : ℕ)):ℚ)+1) / 2^(k+1) := by
        push_cast; rw [pow_succ]; ring
      rw [hkn, e2, e1]
      exact ih (k+1) (2*j) (by omega) (by rw [← e1]; exact h0)
        (by rw [← e1]; exact hlo) (by rw [← e2, hmid_eq]; exact hrm)
    · -- root above the midpoint: the bisection keeps the upper half
      have hcond : ¬ (resistive_power mass cda crr rho grade
          ((span * (j:ℚ) / 2^k + span * ((j:ℚ)+1) / 2^k) / 2) >
          resistive_power mass cda crr rho grade root) := by
        rw [hmid_eq]
        refine not_lt.2 (le_of_lt (hmono _ _ ?_ hrm))
        rw [← hmid_eq]
        linarith
      rw [if_neg hcond]
      have e1 : (span * (j:ℚ) / 2^k + span * ((j:ℚ)+1) / 2^k) / 2 =
          span * (((2*j+1 : ℕ)):ℚ) / 2^(k+1) := by
        push_cast; rw [pow_succ]; ring
      have e2 : span * ((j:ℚ)+1) / 2^k = span * ((((2*j+1 : ℕ)):ℚ)+1) / 2^(k+1) := by
        push_cast; rw [pow_succ]; ring
      rw [hkn, e1, e2]
      refine ih (k+1) (2*j+1) (by omega) ?_
        (by rw [← e1, hmid_eq]; exact hrm) (by rw [← e2]; exact hhi)
      exact div_nonneg (mul_nonneg hspan (by positivity)) (by positivity)

/-! ## Claim C6 -/

/-- C6, counterexample: `power_to_speed_flat` is not monotone in its power
argument for every fixed parameter set.  With `max_speed_mps = 3 + 3/2^61`
and the other defaults, take `p1` with `p1 * eff` exactly the resistive
power at the bracket top and `p2` slightly larger (root `3 + 7/2^62`).
For `p1` the bracket never expands and 60 bisection steps return
`3 - 3/2^122`; for `p2` the bracket expands to `[0, 5]` and the bisection
returns the centre `3 - 1/2^61` of the dyadic cell holding the root —
strictly below the first result although `p1 < p2`. -/
theorem c6_counterexample :
    resistive_power 80 (8/25) (1/250) (49/40) 0 (3 + 3/2^61) * (40/39) ≤
      resistive_power 80 (8/25) (1/250) (49/40) 0 (3 + 7/2^62) * (40/39) ∧
    ¬ (power_to_speed_flat
          (resistive_power 80 (8/25) (1/250) (49/40) 0 (3 + 3/2^61) * (40/39))
          80 (8/25) (1/250) (49/40) (39/40) 0 (3 + 3/2^61) ≤
        power_to_speed_flat
          (resistive_power 80 (8/25) (1/250) (49/40) 0 (3 + 7/2^62) * (40/39))
          80 (8/25) (1/250) (49/40) (39/40) 0 (3 + 3/2^61)) := by
  have hm := resistive_strictMono_default
  have hHlt : (3 + 3/2^61 : ℚ) < 3 + 7/2^62 := by norm_num
  have hH0 : (0:ℚ) < 3 + 3/2^61 := by norm_num
  have hr0 : (0:ℚ) < 3 + 7/2^62 := by norm_num
  have hres0 : resistive_power 80 (8/25) (1/250) (49/40) 0 0 = 0 := by
    norm_num [resistive_power, gconst]
  have hp1pos : 0 < resistive_power 80 (8/25) (1/250) (49/40) 0 (3 + 3/2^61) := by
    have h := hm 0 (3 + 3/2^61) le_rfl hH0
    rw [hres0] at h; exact h
  have hp2pos : 0 < resistive_power 80 (8/25) (1/250) (49/40) 0 (3 + 7/2^62) := by
    have h := hm 0 (3 + 7/2^62) le_rfl hr0
    rw [hres0] at h; exact h
  constructor
  · exact le_of_lt (mul_lt_mul_of_pos_right (hm _ _ (le_of_lt hH0) hHlt) (by norm_num))
  · -- run 1: no bracket expansion, the bisection walks to the top of [0, H]
    have hpw1 : resistive_power 80 (8/25) (1/250) (49/40) 0 (3 + 3/2^61) * (40/39) * (39/40)
        = resistive_power 80 (8/25) (1/250) (49/40) 0 (3 + 3/2^61) := by ring
    have hexp1 : expandHi 80 (8/25) (1/250) (49/40) 0
        (resistive_power 80 (8/25) (1/250) (49/40) 0 (3 + 3/2^61)) 64 (3 + 3/2^61)
        = 3 + 3/2^61 := by
      rw [show (64:ℕ) = 63 + 1 from rfl, expandHi,
          if_neg (fun hcon => lt_irrefl _ hcon.1)]
    have hrun1 := bisectIter_all_lo 80 (8/25) (1/250) (49/40) 0 (3 + 3/2^61) hm 60 0
      le_rfl (le_of_lt hH0)
    have hv1 : power_to_speed_flat
        (resistive_power 80 (8/25) (1/250) (49/40) 0 (3 + 3/2^61) * (40/39))
        80 (8/25) (1/250) (49/40) (39/40) 0 (3 + 3/2^61)
        = ((3 + 3/2^61) - ((3 + 3/2^61) - 0)/2^60 + (3 + 3/2^61)) / 2 := by
      simp only [power_to_speed_flat]
      rw [if_neg (not_le.2 (mul_pos hp1pos (by norm_num)))]
      rw [hpw1, hexp1, hrun1]
    -- run 2: the bracket expands to [0, 5]
    have hpw2 : resistive_power 80 (8/25) (1/250) (49/40) 0 (3 + 7/2^62) * (40/39) * (39/40)
        = resistive_power 80 (8/25) (1/250) (49/40) 0 (3 + 7/2^62) := by ring
    have hcond1 : resistive_power 80 (8/25) (1/250) (49/40) 0 (3 + 3/2^61) <
        resistive_power 80 (8/25) (1/250) (49/40) 0 (3 + 7/2^62) ∧ (3 + 3/2^61 : ℚ) < 60 :=
      ⟨hm _ _ (le_of_lt hH0) hHlt, by norm_num⟩
    have hcond2 : ¬ (resistive_power 80 (8/25) (1/250) (49/40) 0 (5:ℚ) <
        resistive_power 80 (8/25) (1/250) (49/40) 0 (3 + 7/2^62) ∧ (5:ℚ) < 60) :=
      fun hcon => absurd hcon.1 (not_lt.2 (le_of_lt (hm _ _ (le_of_lt hr0) (by norm_num))))
    have hexp2 : expandHi 80 (8/25) (1/250) (49/40) 0
        (resistive_power 80 (8/25) (1/250) (49/40) 0 (3 + 7/2^62)) 64 (3 + 3/2^61) = 5 := by
      rw [show (64:ℕ) = 63 + 1 from rfl, expandHi, if_pos hcond1,
          if_pos (by norm_num : (3 + 3/2^61 : ℚ) > 0),
          max_eq_right (by norm_num : (3 + 3/2^61 : ℚ) * (3/2) ≤ 5),
          show (63:ℕ) = 62 + 1 from rfl, expandHi, if_neg hcond2]
    have hnomid : ∀ (k : ℕ) (j : ℕ), k ≤ 60 →
        (3 + 7/2^62 : ℚ) ≠ 5 * (2 * (j:ℚ) + 1) / 2^k := by
      intro k j hk heq
      have hsplit : (2:ℚ)^60 = 2^(60-k) * 2^k := by
        rw [← pow_add]; congr 1; omega
      have h2 : 5 * (2*(j:ℚ)+1) / 2^k * 2^60 = 5 * (2*(j:ℚ)+1) * 2^(60-k) := by
        rw [hsplit]
        field_simp
        ring
      have h1 : ((3:ℚ) + 7/2^62) * 2^60 = 3 * 2^60 + 7/4 := by norm_num
      have h3 : 5 * (2*(j:ℚ)+1) * 2^(60-k) = 3 * 2^60 + 7/4 := by
        rw [← h2, ← heq, h1]
      have h4 : (20:ℚ) * ((2*(j:ℚ)+1) * 2^(60-k)) = 3 * 2^62 + 7 := by
        rw [show (20:ℚ) * ((2*(j:ℚ)+1) * 2^(60-k)) = 4 * (5 * (2*(j:ℚ)+1) * 2^(60-k)) by ring,
            h3]
        norm_num
      have h5 : 20 * ((2*j+1) * 2^(60-k)) = 13835058055282163719 := by
        have := h4
        rw [show (3:ℚ) * 2^62 + 7 = 13835058055282163719 by norm_num] at this
        exact_mod_cast this
      set X := (2*j+1) * 2^(60-k) with hX
      omega
    obtain ⟨j', heq, hj1, hj2, _⟩ := bisectIter_cell 80 (8/25) (1/250) (49/40) 0
      (3 + 7/2^62) 5 (by norm_num) hm hnomid 60 0 0 (by norm_num)
      (by push_cast; norm_num) (by push_cast; norm_num) (by push_cast; norm_num)
    rw [show (5 * ((0:ℕ):ℚ) / 2^0, 5 * (((0:ℕ):ℚ)+1) / 2^0) = ((0:ℚ), (5:ℚ))
        by norm_num [Prod.mk.injEq]] at heq
    simp only [Nat.zero_add] at heq hj1 hj2
    have e60 : ((3:ℚ) + 7/2^62) * 2^60 = 13835058055282163719/4 := by norm_num
    have hj1' : 20 * j' < 13835058055282163719 := by
      rw [div_lt_iff₀ (by positivity : (0:ℚ) < 2^60), e60] at hj1
      have h6 : (20:ℚ) * (j':ℚ) < 13835058055282163719 := by linarith
      exact_mod_cast h6
    have hj2' : 13835058055282163719 < 20 * j' + 20 := by
      rw [lt_div_iff₀ (by positivity : (0:ℚ) < 2^60), e60] at hj2
      have h6 : (13835058055282163719:ℚ) < 20 * (j':ℚ) + 20 := by linarith
      exact_mod_cast h6
    have hjval : j' = 691752902764108185 := by omega
    subst hjval
    have hv2 : power_to_speed_flat
        (resistive_power 80 (8/25) (1/250) (49/40) 0 (3 + 7/2^62) * (40/39))
        80 (8/25) (1/250) (49/40) (39/40) 0 (3 + 3/2^61)
        = (5 * ((691752902764108185:ℕ):ℚ) / 2^60 +
            (5 * (((691752902764108185:ℕ):ℚ)+1) / 2^60)) / 2 := by
      simp only [power_to_speed_flat]
      rw [if_neg (not_le.2 (mul_pos hp2pos (by norm_num)))]
      rw [hpw2, hexp2, heq]
    rw [hv1, hv2]
    push_cast
    norm_num

theorem bisectIter_pair_mono (mass cda crr rho grade pw1 pw2 : ℚ) (hpw : pw1 ≤ pw2) :
    ∀ (n : ℕ) (lo1 hi1 lo2 hi2 : ℚ), lo1 ≤ hi1 → lo2 ≤ hi2 →
      ((lo1, hi1) = ((lo2, hi2) : ℚ × ℚ) ∨ hi1 ≤ lo2) →
      (bisectIter mass cda crr rho grade pw1 n (lo1, hi1)).1 ≤
        (bisectIter mass cda crr rho grade pw1 n (lo1, hi1)).2 ∧
      (bisectIter mass cda crr rho grade pw2 n (lo2, hi2)).1 ≤
        (bisectIter mass cda crr rho grade pw2 n (lo2, hi2)).2 ∧
      (bisectIter mass cda crr rho grade pw1 n (lo1, hi1) =
          bisectIter mass cda crr rho grade pw2 n (lo2, hi2) ∨
        (bisectIter mass cda crr rho grade pw1 n (lo1, hi1)).2 ≤
          (bisectIter mass cda crr rho grade pw2 n (lo2, hi2)).1) := by
  intro n
  induction n with
  | zero =>
    intro lo1 hi1 lo2 hi2 h1 h2 hd
    rw [bisectIter, bisectIter]
    rcases hd with hd | hd
    · exact ⟨h1, h2, Or.inl hd⟩
    · exact ⟨h1, h2, Or.inr hd⟩
  | succ n ih =>
    intro lo1 hi1 lo2 hi2 h1 h2 hd
    rcases hd with hd | hd
    · -- identical brackets so far
      obtain ⟨rfl, rfl⟩ := Prod.mk.injEq lo1 hi1 lo2 hi2 ▸ hd
      rw [bisectIter, bisectIter]
      by_cases c2 : resistive_power mass cda crr rho grade ((lo1 + hi1)/2) > pw2
      · have c1 : resistive_power mass cda crr rho grade ((lo1 + hi1)/2) > pw1 :=
          lt_of_le_of_lt hpw c2
        rw [if_pos c1, if_pos c2]
        exact ih lo1 ((lo1 + hi1)/2) lo1 ((lo1 + hi1)/2) (by linarith) (by linarith) (Or.inl rfl)
      · by_cases c1 : resistive_power mass cda crr rho grade ((lo1 + hi1)/2) > pw1
        · rw [if_pos c1, if_neg c2]
          exact ih lo1 ((lo1 + hi1)/2) ((lo1 + hi1)/2) hi1 (by linarith) (by linarith)
            (Or.inr le_rfl)
        · rw [if_neg c1, if_neg c2]
          exact ih ((lo1 + hi1)/2) hi1 ((lo1 + hi1)/2) hi1 (by linarith) (by linarith)
            (Or.inl rfl)
    · -- run 1 already entirely below run 2
      rw [bisectIter, bisectIter]
      by_cases c1 : resistive_power mass cda crr rho grade ((lo1 + hi1)/2) > pw1 <;>
        by_cases c2 : resistive_power mass cda crr rho grade ((lo2 + hi2)/2) > pw2
      · rw [if_pos c1, if_pos c2]
        exact ih lo1 ((lo1 + hi1)/2) lo2 ((lo2 + hi2)/2) (by linarith) (by linarith)
          (Or.inr (by linarith))
      · rw [if_pos c1, if_neg c2]
        exact ih lo1 ((lo1 + hi1)/2) ((lo2 + hi2)/2) hi2 (by linarith) (by linarith)
          (Or.inr (by linarith))
      · rw [if_neg c1, if_pos c2]
        exact ih ((lo1 + hi1)/2) hi1 lo2 ((lo2 + hi2)/2) (by linarith) (by linarith)
          (Or.inr (by linarith))
      · rw [if_neg c1, if_neg c2]
        exact ih ((lo1 + hi1)/2) hi1 ((lo2 + hi2)/2) hi2 (by linarith) (by linarith)
          (Or.inr (by linarith))

/-- C6, amended: `power_to_speed_flat` maps every non-positive power to
exactly zero with no search; and it is monotone non-decreasing in the
power argument whenever the drivetrain efficiency and the search bound are
non-negative and the two powers lead to the same expanded upper bracket
(the counterexample shows monotonicity can fail, by about one part in
`2^61`, when the bracket-expansion loop stops at different bounds for the
two powers). -/
theorem c6_amended :
    (∀ p mass cda crr rho eff grade vmax : ℚ, p ≤ 0 →
        power_to_speed_flat p mass cda crr rho eff grade vmax = 0) ∧
    (∀ p1 p2 mass cda crr rho eff grade vmax : ℚ,
        0 ≤ eff → 0 ≤ vmax → p1 ≤ p2 →
        expandHi mass cda crr rho grade (p1 * eff) 64 vmax =
          expandHi mass cda crr rho grade (p2 * eff) 64 vmax →
        power_to_speed_flat p1 mass cda crr rho eff grade vmax ≤
          power_to_speed_flat p2 mass cda crr rho eff grade vmax) := by
  constructor
  · intro p mass cda crr rho eff grade vmax hp
    simp only [power_to_speed_flat]
    rw [if_pos hp]
  · intro p1 p2 mass cda crr rho eff grade vmax heff hv h12 hexp
    by_cases hp1 : p1 ≤ 0
    · simp only [power_to_speed_flat]
      rw [if_pos hp1]
      by_cases hp2 : p2 ≤ 0
      · rw [if_pos hp2]
      · rw [if_neg hp2]
        have h0 : 0 ≤ expandHi mass cda crr rho grade (p2 * eff) 64 vmax :=
          expandHi_nonneg _ _ _ _ _ _ _ _ hv
        have hbd := bisectIter_bounds mass cda crr rho grade (p2 * eff) 60 0
          (expandHi mass cda crr rho grade (p2 * eff) 64 vmax) le_rfl h0
        linarith [hbd.1, hbd.2.1]
    · have hp2 : ¬ p2 ≤ 0 := fun h => hp1 (le_trans h12 h)
      simp only [power_to_speed_flat]
      rw [if_neg hp1, if_neg hp2, ← hexp]
      have h0 : 0 ≤ expandHi mass cda crr rho grade (p1 * eff) 64 vmax :=
        expandHi_nonneg _ _ _ _ _ _ _ _ hv
      have hmono := bisectIter_pair_mono mass cda crr rho grade (p1 * eff) (p2 * eff)
        (mul_le_mul_of_nonneg_right h12 heff) 60 0
        (expandHi mass cda crr rho grade (p1 * eff) 64 vmax) 0
        (expandHi mass cda crr rho grade (p1 * eff) 64 vmax) h0 h0 (Or.inl rfl)
      rcases hmono.2.2 with heqp | hle
      · rw [heqp]
      · linarith [hmono.1, hmono.2.1]

/-- Witness for `c6_amended` at concrete inputs. -/
theorem c6_witness :
    ((-1:ℚ) ≤ 0 ∧ power_to_speed_flat (-1) 80 (8/25) (1/250) (49/40) (39/40) 0 25 = 0) ∧
    ((0:ℚ) ≤ 39/40 ∧ (0:ℚ) ≤ 25 ∧ (50:ℚ) ≤ 100 ∧
      power_to_speed_flat 50 80 (8/25) (1/250) (49/40) (39/40) 0 25 ≤
        power_to_speed_flat 100 80 (8/25) (1/250) (49/40) (39/40) 0 25) :=
  ⟨⟨by norm_num, c6_amended.1 (-1) 80 (8/25) (1/250) (49/40) (39/40) 0 25 (by norm_num)⟩,
   by norm_num, by norm_num, by norm_num,
   c6_amended.2 50 100 80 (8/25) (1/250) (49/40) (39/40) 0 25 (by norm_num) (by norm_num)
     (by norm_num) (by norm_num [expandHi, resistive_power, gconst])⟩

theorem power_to_speed_flat_nonneg (p mass cda crr rho eff grade vmax : ℚ)
    (hv : 0 ≤ vmax) : 0 ≤ power_to_speed_flat p mass cda crr rho eff grade vmax := by
  simp only [power_to_speed_flat]
  split_ifs with hp
  · exact le_rfl
  · have h0 : 0 ≤ expandHi mass cda crr rho grade (p * eff) 64 vmax :=
      expandHi_nonneg _ _ _ _ _ _ _ _ hv
    have hbd := bisectIter_bounds mass cda crr rho grade (p * eff) 60 0
      (expandHi mass cda crr rho grade (p * eff) 64 vmax) le_rfl h0
    linarith [hbd.1, hbd.2.1]

theorem trimLoop_nonneg (W : ℚ) :
    ∀ (buf : List (ℚ × ℚ)) (acc : ℚ),
      (∀ pr ∈ buf, 0 ≤ pr.1 ∧ 0 ≤ pr.2) →
      ∀ pr ∈ (trimLoop W buf acc).1, 0 ≤ pr.1 ∧ 0 ≤ pr.2 := by
  intro buf
  induction buf with
  | nil => intro acc h; rw [trimLoop]; exact h
  | cons hd rest ih =>
    intro acc h
    obtain ⟨v0, dt0⟩ := hd
    rw [trimLoop]
    by_cases h1 : acc > W ∧ rest ≠ []
    · rw [if_pos h1]
      by_cases h2 : acc - dt0 ≥ W
      · rw [if_pos h2]
        exact ih (acc - dt0) (fun pr hpr => h pr (List.mem_cons_of_mem _ hpr))
      · rw [if_neg h2]
        intro pr hpr
        rcases List.mem_cons.1 hpr with hpr | hpr
        · subst hpr
          push_neg at h2
          have hdt0 : 0 < dt0 := by linarith [h1.1]
          have hkeep : 0 ≤ dt0 - (acc - W) := by linarith
          constructor
          · exact div_nonneg (mul_nonneg (h (v0, dt0) (List.mem_cons_self _ _)).1 hkeep) hdt0.le
          · exact hkeep
        · exact h pr (List.mem_cons_of_mem _ hpr)
    · rw [if_neg h1]
      exact h

theorem weightedSum_nonneg (buf : List (ℚ × ℚ))
    (h : ∀ pr ∈ buf, 0 ≤ pr.1 ∧ 0 ≤ pr.2) : 0 ≤ weightedSum buf := by
  refine List.sum_nonneg ?_
  intro x hx
  obtain ⟨pr, hpr, rfl⟩ := List.mem_map.1 hx
  exact mul_nonneg (h pr hpr).1 (h pr hpr).2

theorem smoothGo_nonneg (W : ℚ) :
    ∀ (pairs buf : List (ℚ × ℚ)) (acc : ℚ),
      (∀ pr ∈ pairs, 0 ≤ pr.1 ∧ 0 ≤ pr.2) →
      (∀ pr ∈ buf, 0 ≤ pr.1 ∧ 0 ≤ pr.2) →
      ∀ x ∈ smoothGo W pairs buf acc, 0 ≤ x := by
  intro pairs
  induction pairs with
  | nil => intro buf acc _ _ x hx; rw [smoothGo] at hx; exact absurd hx (List.not_mem_nil x)
  | cons hd rest ih =>
    intro buf acc hp hb x hx
    obtain ⟨v, dt⟩ := hd
    rw [smoothGo] at hx
    have hbuf1 : ∀ pr ∈ buf ++ [(v, dt)], 0 ≤ pr.1 ∧ 0 ≤ pr.2 := by
      intro pr hpr
      rcases List.mem_append.1 hpr with hpr | hpr
      · exact hb pr hpr
      · rcases List.mem_singleton.1 hpr with rfl
        exact hp (v, dt) (List.mem_cons_self _ _)
    have htrim := trimLoop_nonneg W (buf ++ [(v, dt)]) (acc + dt) hbuf1
    rcases List.mem_cons.1 hx with hx | hx
    · subst hx
      split_ifs with hacc
      · exact div_nonneg (weightedSum_nonneg _ htrim) (le_of_lt hacc)
      · exact (hp (v, dt) (List.mem_cons_self _ _)).1
    · exact ih _ _ (fun pr hpr => hp pr (List.mem_cons_of_mem _ hpr)) htrim x hx

theorem zipDiff_nonneg :
    ∀ (rest : List Row) (r : Row), List.Chain' (fun a b => a.ts ≤ b.ts) (r :: rest) →
      ∀ x ∈ List.zipWith (fun a b => b.ts - a.ts) (r :: rest) rest, 0 ≤ x := by
  intro rest
  induction rest with
  | nil => intro r _ x hx; simp at hx
  | cons r2 rest2 ih =>
    intro r hc x hx
    rw [List.zipWith_cons_cons] at hx
    rw [List.chain'_cons] at hc
    rcases List.mem_cons.1 hx with rfl | hx
    · linarith [hc.1]
    · exact ih r2 hc.2 x hx

theorem dtsL_nonneg :
    ∀ (rows : List Row), List.Chain' (fun a b => a.ts ≤ b.ts) rows →
      ∀ x ∈ dtsL rows, 0 ≤ x := by
  intro rows
  match rows with
  | [] => intro _ x hx; rw [dtsL] at hx; exact absurd hx (List.not_mem_nil x)
  | r :: rest =>
    intro hc x hx
    rw [dtsL] at hx
    rcases List.mem_cons.1 hx with rfl | hx
    · norm_num
    · exact zipDiff_nonneg rest r hc x hx

theorem zipWithSpd_mem :
    ∀ (rows : List Row) (vs : List ℚ) (r : Row),
      r ∈ List.zipWith (fun r v => { r with spd := some v }) rows vs →
      ∃ v ∈ vs, r.spd = some v := by
  intro rows
  induction rows with
  | nil => intro vs r hr; simp at hr
  | cons hd rest ih =>
    intro vs r hr
    match vs with
    | [] => simp at hr
    | v :: vs' =>
      rw [List.zipWith_cons_cons] at hr
      rcases List.mem_cons.1 hr with hr | hr
      · subst hr; exact ⟨v, List.mem_cons_self _ _, rfl⟩
      · obtain ⟨v', hv', hspd⟩ := ih vs' r hr
        exact ⟨v', List.mem_cons_of_mem _ hv', hspd⟩

theorem mapOptionL_mem (f : α → Option β) :
    ∀ (xs : List α) (ys : List β), mapOptionL f xs = some ys →
      ∀ y ∈ ys, ∃ x ∈ xs, f x = some y := by
  intro xs
  induction xs with
  | nil =>
    intro ys hys y hy
    rw [mapOptionL] at hys
    obtain rfl : ([] : List β) = ys := Option.some.inj hys
    exact absurd hy (List.not_mem_nil y)
  | cons x xs' ih =>
    intro ys hys y hy
    rw [mapOptionL] at hys
    match hfx : f x with
    | none => rw [hfx] at hys; exact absurd hys (by simp)
    | some y0 =>
      rw [hfx] at hys
      obtain ⟨ys', hys', rfl⟩ := Option.map_eq_some'.1 hys
      rcases List.mem_cons.1 hy with rfl | hy
      · exact ⟨x, List.mem_cons_self _ _, hfx⟩
      · obtain ⟨x', hx', hfx'⟩ := ih ys' hys' y hy
        exact ⟨x', List.mem_cons_of_mem _ hx', hfx'⟩

theorem getLastMem : ∀ (l : List Segment) (sg : Segment), l.getLast? = some sg → sg ∈ l := by
  intro l
  induction l with
  | nil => intro sg h; simp at h
  | cons x xs ih =>
    intro sg h
    match xs with
    | [] =>
      rw [List.getLast?_singleton] at h
      rcases Option.some.inj h with rfl
      exact List.mem_singleton_self _
    | y :: ys =>
      rw [List.getLast?_cons_cons] at h
      exact List.mem_cons_of_mem _ (ih sg h)

/-! ## Claim C7 -/

/-- C7: for every Sample sequence with non-decreasing timestamps, every
Segment Plan with non-negative target powers, and every jitter draw
stream, each power value in the synthesized Time-to-Power Map is ≥ 0; and
every speed value emitted by the physical model plus smoothing pass of
`apply_speed_from_power` is ≥ 0 (for any map and any physical
parameters). -/
theorem c7_nonneg :
    (∀ (rows : List Row) (segs : List Segment) (stream : ℕ → ℚ)
        (m : List (ℚ × ℚ) × ℤ),
        (∀ sg ∈ segs, 0 ≤ sg.target) →
        build_power_series rows segs stream = some m →
        ∀ pr ∈ m.1, 0 ≤ pr.2) ∧
    (∀ (rows : List Row) (ttp : List (ℚ × ℚ)) (mass cda crr rho eff grade W : ℚ)
        (out : List Row),
        List.Chain' (fun a b => a.ts ≤ b.ts) rows →
        apply_speed_from_power rows ttp mass cda crr rho eff grade W = some out →
        ∀ r ∈ out, ∀ v : ℚ, r.spd = some v → 0 ≤ v) := by
  constructor
  · intro rows segs stream m hsegs hb pr hpr
    match rows with
    | [] => rw [build_power_series] at hb; exact absurd hb (by simp)
    | r0 :: rest =>
      simp only [build_power_series] at hb
      split_ifs at hb
      obtain ⟨l, hl, rfl⟩ := Option.map_eq_some'.1 hb
      obtain ⟨row, _, hrow⟩ := mapOptionL_mem _ _ _ hl pr hpr
      by_cases hin : 0 ≤ Int.floor (row.ts - r0.ts) ∧
          Int.floor (row.ts - r0.ts) <
            min (Int.floor (((((r0 :: rest).getLast?).getD r0).ts) - r0.ts) + 1)
              ((segs.map (fun sg => (sg.dur : ℤ))).sum)
      · rw [if_pos hin] at hrow
        rcases Option.some.inj hrow with rfl
        exact le_max_left _ _
      · rw [if_neg hin] at hrow
        obtain ⟨sg, hsg, hpr2⟩ := Option.map_eq_some'.1 hrow
        rcases hpr2 with rfl
        exact hsegs sg (getLastMem segs sg hsg)
  · intro rows ttp mass cda crr rho eff grade W out hchain happ r hr v hv
    match rows with
    | [] => rw [apply_speed_from_power] at happ; exact absurd happ (by simp)
    | r0 :: rest =>
      simp only [apply_speed_from_power] at happ
      rcases Option.some.inj happ with rfl
      obtain ⟨v', hv', hspd⟩ := zipWithSpd_mem _ _ _ hr
      rw [hv] at hspd
      rcases Option.some.inj hspd with rfl
      refine smoothGo_nonneg W _ [] 0 ?_ (by simp) _ hv'
      intro pr hpr
      have hmem := List.of_mem_zip hpr
      constructor
      · obtain ⟨row, _, hrow⟩ := List.mem_map.1 hmem.1
        rw [← hrow]
        exact power_to_speed_flat_nonneg _ _ _ _ _ _ _ _ (by norm_num)
      · exact dtsL_nonneg _ hchain _ hmem.2

/-- Witness for `c7_nonneg` at concrete inputs. -/
theorem c7_witness :
    (∀ sg ∈ [Segment.mk "" 10 100], (0:ℚ) ≤ sg.target) ∧
    (∀ pr ∈ (([((0:ℚ), (100:ℚ))], (1:ℤ)) : List (ℚ × ℚ) × ℤ).1, (0:ℚ) ≤ pr.2) ∧
    List.Chain' (fun a b : Row => a.ts ≤ b.ts) [Row.mk 0 none none none] ∧
    (∀ r ∈ [Row.mk 0 none none (some 0)], ∀ v : ℚ, r.spd = some v → 0 ≤ v) := by
  refine ⟨by simp, ?_, by simp, ?_⟩
  · refine c7_nonneg.1 [Row.mk 0 none none none] [Segment.mk "" 10 100] (fun _ => 0)
      ([((0:ℚ), (100:ℚ))], (1:ℤ)) (by simp) ?_
    norm_num [build_power_series, mapOptionL, segTarget]
  · refine c7_nonneg.2 [Row.mk 0 none none none] [] 80 (8/25) (1/250) (49/40) (39/40) 0 5
      [Row.mk 0 none none (some 0)] (by simp) ?_
    norm_num [apply_speed_from_power, power_to_speed_flat, lookupTs, dtsL, smoothGo,
      trimLoop, weightedSum]

theorem bisectIter_pos (mass cda crr rho grade pw : ℚ) :
    ∀ (n : ℕ) (lo hi : ℚ), 0 ≤ lo → 0 < hi →
      0 ≤ (bisectIter mass cda crr rho grade pw n (lo, hi)).1 ∧
      0 < (bisectIter mass cda crr rho grade pw n (lo, hi)).2 := by
  intro n
  induction n with
  | zero => intro lo hi h0 hh; exact ⟨h0, hh⟩
  | succ n ih =>
    intro lo hi h0 hh
    rw [bisectIter]
    split_ifs with h
    · exact ih lo ((lo + hi)/2) h0 (by linarith)
    · exact ih ((lo + hi)/2) hi (by linarith) hh

theorem p2s_100_pos :
    0 < power_to_speed_flat 100 80 (8/25) (1/250) (49/40) (39/40) 0 25 := by
  have hexp : expandHi 80 (8/25) (1/250) (49/40) 0 (100 * (39/40)) 64 25 = 25 := by
    norm_num [expandHi, resistive_power, gconst]
  simp only [power_to_speed_flat]
  rw [if_neg (by norm_num : ¬ ((100:ℚ) ≤ 0)), hexp]
  have h := bisectIter_pos 80 (8/25) (1/250) (49/40) 0 (100 * (39/40)) 60 0 25
    le_rfl (by norm_num)
  linarith [h.1, h.2]

theorem trimLoopSpec_eq (W : ℚ) :
    ∀ (buf : List (ℚ × ℚ)) (acc : ℚ), trimLoopSpec W buf acc = trimLoop W buf acc := by
  intro buf
  induction buf with
  | nil => intro acc; rw [trimLoopSpec, trimLoop]
  | cons hd rest ih =>
    intro acc
    obtain ⟨v0, dt0⟩ := hd
    rw [trimLoopSpec, trimLoop]
    by_cases h1 : acc > W ∧ rest ≠ []
    · rw [if_pos h1, if_pos h1]
      by_cases h2 : acc - dt0 ≥ W
      · rw [if_pos h2, if_pos h2, ih]
      · rw [if_neg h2, if_neg h2]
        push_neg at h2
        have hdt0 : dt0 ≠ 0 := by
          have := h1.1
          intro hc
          rw [hc] at h2
          linarith
        have e1 : v0 * ((dt0 - (acc - W)) / dt0) = v0 * (dt0 - (acc - W)) / dt0 := by
          ring
        have e2 : dt0 * ((dt0 - (acc - W)) / dt0) = dt0 - (acc - W) := by
          field_simp
        rw [e1, e2]
    · rw [if_neg h1, if_neg h1]

theorem smoothAmended_go (W : ℚ) :
    ∀ (pairs : List (ℚ × ℚ)) (outRev : List ℚ) (buf : List (ℚ × ℚ)) (acc : ℚ),
      (pairs.foldl (smoothStep W) (outRev, buf, acc)).1.reverse =
        outRev.reverse ++ smoothGo W pairs buf acc := by
  intro pairs
  induction pairs with
  | nil => intro outRev buf acc; rw [smoothGo]; simp
  | cons hd rest ih =>
    intro outRev buf acc
    obtain ⟨v, dt⟩ := hd
    rw [List.foldl_cons, smoothGo]
    have hstep : smoothStep W (outRev, buf, acc) (v, dt) =
        ((if (trimLoop W (buf ++ [(v, dt)]) (acc + dt)).2 > 0 then
            weightedSum (trimLoop W (buf ++ [(v, dt)]) (acc + dt)).1 /
              (trimLoop W (buf ++ [(v, dt)]) (acc + dt)).2
          else v) :: outRev,
         (trimLoop W (buf ++ [(v, dt)]) (acc + dt)).1,
         (trimLoop W (buf ++ [(v, dt)]) (acc + dt)).2) := by
      simp only [smoothStep, trimLoopSpec_eq]
    rw [hstep, ih]
    simp [List.append_assoc]

/-! ## Claim C2 -/

/-- C2, amended: the speed-smoothing pass of `apply_speed_from_power` is
the trailing time-weighted moving average scan over the raw model speeds
in which `(value, Δt)` pairs accumulate in a queue until their summed Δt
reaches the window; when the queue overshoots, whole oldest buckets are
dropped while that keeps the window covered, and the remaining oldest
bucket has **both its stored value and its Δt share scaled by the kept
fraction of its time share**; the emitted value is the Δt-weighted mean of
the queue (the raw value when no time has accumulated), and the first
sample's Δt is taken as 1 s. -/
theorem c2_amended (rows : List Row) (ttp : List (ℚ × ℚ))
    (mass cda crr rho eff grade W : ℚ) :
    apply_speed_from_power rows ttp mass cda crr rho eff grade W =
      apply_speed_amended rows ttp mass cda crr rho eff grade W := by
  match rows with
  | [] => rfl
  | r0 :: rest =>
    simp only [apply_speed_from_power, apply_speed_amended]
    have heq : ∀ pairs : List (ℚ × ℚ), smoothAmended W pairs = smoothGo W pairs [] 0 := by
      intro pairs
      rw [smoothAmended, smoothAmended_go]
      simp
    rw [heq]

theorem p2s_zero :
    power_to_speed_flat 0 80 (8/25) (1/250) (49/40) (39/40) 0 25 = 0 := by
  simp [power_to_speed_flat]

theorem consNeNilIff (x : α) (xs : List α) : (x :: xs = []) = False := by
  simp

theorem c2_eval_code :
    apply_speed_from_power
      [Row.mk 0 none none none, Row.mk 2 none none none, Row.mk (9/2) none none none]
      [((0:ℚ), (100:ℚ)), ((2:ℚ), (0:ℚ))] 80 (8/25) (1/250) (49/40) (39/40) 0 5 =
    some [Row.mk 0 none none (some (power_to_speed_flat 100 80 (8/25) (1/250) (49/40) (39/40) 0 25)),
          Row.mk 2 none none (some (power_to_speed_flat 100 80 (8/25) (1/250) (49/40) (39/40) 0 25 / 3)),
          Row.mk (9/2) none none (some (power_to_speed_flat 100 80 (8/25) (1/250) (49/40) (39/40) 0 25 / 20))] := by
  norm_num [apply_speed_from_power, lookupTs, dtsL, smoothGo, trimLoop, weightedSum, p2s_zero,
    consNeNilIff]
  ring_nf

theorem c2_eval_claim :
    apply_speed_claim
      [Row.mk 0 none none none, Row.mk 2 none none none, Row.mk (9/2) none none none]
      [((0:ℚ), (100:ℚ)), ((2:ℚ), (0:ℚ))] 80 (8/25) (1/250) (49/40) (39/40) 0 5 =
    some [Row.mk 0 none none (some (power_to_speed_flat 100 80 (8/25) (1/250) (49/40) (39/40) 0 25)),
          Row.mk 2 none none (some (power_to_speed_flat 100 80 (8/25) (1/250) (49/40) (39/40) 0 25 / 3)),
          Row.mk (9/2) none none (some (power_to_speed_flat 100 80 (8/25) (1/250) (49/40) (39/40) 0 25 / 10))] := by
  norm_num [apply_speed_claim, lookupTs, dtsL, smoothGoClaim, trimLoopClaim, weightedSum,
    p2s_zero, consNeNilIff]
  ring_nf

/-- C2, counterexample: the smoothing pass does not keep the oldest
bucket's value when trimming it — it scales the value as well.  On
timestamps `0, 2, 4.5` with powers `100, 0` (window 5 s) the third emitted
speed is `v/20` (`v` the raw model speed at 100 W) while the claimed
value-preserving trim yields `v/10`. -/
theorem c2_counterexample :
    apply_speed_from_power
      [Row.mk 0 none none none, Row.mk 2 none none none, Row.mk (9/2) none none none]
      [((0:ℚ), (100:ℚ)), ((2:ℚ), (0:ℚ))] 80 (8/25) (1/250) (49/40) (39/40) 0 5 ≠
    apply_speed_claim
      [Row.mk 0 none none none, Row.mk 2 none none none, Row.mk (9/2) none none none]
      [((0:ℚ), (100:ℚ)), ((2:ℚ), (0:ℚ))] 80 (8/25) (1/250) (49/40) (39/40) 0 5 := by
  intro h
  rw [c2_eval_code, c2_eval_claim] at h
  simp only [Option.some.injEq, List.cons.injEq, Row.mk.injEq] at h
  have h3 := h.2.2.1.2.2.2
  have hv := p2s_100_pos
  rw [div_eq_div_iff (by norm_num) (by norm_num)] at h3
  nlinarith [hv]

/-! ## Claim C5 -/

/-- C5, counterexample: the claim asserts all four stages raise on an
empty Sample sequence; but the sensor gap-filler returns an empty list and
the metrics engine's `_cum_dist_from_rows` returns the zero tuple — both
return normally (the embeddings are total on this input: no raising path
is taken). -/
theorem c5_counterexample :
    fill_missing_hr_and_cadence [] 1 2 0 (fun _ => 0) (fun _ => 0) (fun _ => 0) = [] ∧
    cum_dist_from_rows [] = (0, 0, 0, 0) :=
  ⟨rfl, rfl⟩

/-- C5, amended: on an empty Sample sequence the power synthesizer
(stage 4.2, explicit check) and the speed stage (stage 4.3, `ts_list[0]`
index fault) raise immediately with no partial result; the sensor
gap-filler (4.1) instead returns an empty sequence and the metrics
engine (4.4) returns a zero tuple, both without raising. -/
theorem c5_amended :
    (∀ (segs : List Segment) (stream : ℕ → ℚ),
        build_power_series [] segs stream = none) ∧
    (∀ (ttp : List (ℚ × ℚ)) (mass cda crr rho eff grade W : ℚ),
        apply_speed_from_power [] ttp mass cda crr rho eff grade W = none) ∧
    (∀ (a b c : ℚ) (s1 s2 s3 : ℕ → ℚ),
        fill_missing_hr_and_cadence [] a b c s1 s2 s3 = []) ∧
    cum_dist_from_rows [] = (0, 0, 0, 0) :=
  ⟨fun _ _ => rfl, fun _ _ _ _ _ _ _ _ => rfl, fun _ _ _ _ _ _ => rfl, rfl⟩

/-! ## Claim C1 -/

/-- C1: the synthesized Time-to-Power Map is **not** a function of the
input and the caller-supplied seed alone.  `build_power_series` draws its
jitter from the module-global `random.uniform` (line 103), whose state is
not derived from any seed argument: two runs of the same input with
different ambient global-generator states produce different maps (here
draws all-0 versus all-1, both legal draws for `POWER_JITTER_W = 3`). -/
theorem c1_global_rng_bug :
    build_power_series [Row.mk 0 none none none] [Segment.mk "" 10 100] (fun _ => 0) ≠
      build_power_series [Row.mk 0 none none none] [Segment.mk "" 10 100] (fun _ => 1) := by
  norm_num [build_power_series, mapOptionL, segTarget]

/-! ## Claim C9 -/

theorem interp_length (vals : List (Option ℚ)) (amp : ℚ) (bounds : Option (ℚ × ℚ))
    (stream : ℕ → ℚ) : (interp_with_jitter vals amp bounds stream).length = vals.length := by
  rw [interp_with_jitter]
  split_ifs
  · rw [List.length_replicate]
  · rw [List.length_map, List.length_range]

theorem extraCad_length (orig : List (Option ℚ)) (cadF : List ℤ) (stream : ℕ → ℚ) :
    (extraCad orig cadF stream).length = cadF.length := by
  rw [extraCad, List.length_map, List.length_range]

theorem reassembleHC_spec :
    ∀ (rows : List Row) (hs cs : List ℤ),
      rows.length ≤ hs.length → rows.length ≤ cs.length →
      (reassembleHC rows hs cs).length = rows.length ∧
      ∀ (i : ℕ) (h1 : i < (reassembleHC rows hs cs).length) (h2 : i < rows.length),
        ((reassembleHC rows hs cs).get ⟨i, h1⟩).ts = (rows.get ⟨i, h2⟩).ts ∧
        ((reassembleHC rows hs cs).get ⟨i, h1⟩).spd = (rows.get ⟨i, h2⟩).spd := by
  intro rows
  induction rows with
  | nil =>
    intro hs cs _ _
    refine ⟨rfl, ?_⟩
    intro i h1 h2
    exact absurd h2 (by simp)
  | cons r rest ih =>
    intro hs cs hh hc
    match hs, cs with
    | h :: hs', c :: cs' =>
      have hh' : rest.length ≤ hs'.length := by simpa using hh
      have hc' : rest.length ≤ cs'.length := by simpa using hc
      have hrec := ih hs' cs' hh' hc'
      rw [reassembleHC]
      refine ⟨by simpa using hrec.1, ?_⟩
      intro i h1 h2
      match i with
      | 0 => exact ⟨rfl, rfl⟩
      | i + 1 =>
        have h1' : i < (reassembleHC rest hs' cs').length := by
          simpa using h1
        have h2' : i < rest.length := by simpa using h2
        exact hrec.2 i h1' h2'

/-- C9: `fill_missing_hr_and_cadence` preserves the length and order of
the row sequence, and every output row's timestamp and speed are exactly
the corresponding input row's; only heart rate and cadence are
rewritten. -/
theorem c9_frame (rows : List Row) (a b c : ℚ) (s1 s2 s3 : ℕ → ℚ) :
    (fill_missing_hr_and_cadence rows a b c s1 s2 s3).length = rows.length ∧
    ∀ (i : ℕ) (h1 : i < (fill_missing_hr_and_cadence rows a b c s1 s2 s3).length)
      (h2 : i < rows.length),
      ((fill_missing_hr_and_cadence rows a b c s1 s2 s3).get ⟨i, h1⟩).ts =
        (rows.get ⟨i, h2⟩).ts ∧
      ((fill_missing_hr_and_cadence rows a b c s1 s2 s3).get ⟨i, h1⟩).spd =
        (rows.get ⟨i, h2⟩).spd := by
  have hh : rows.length ≤
      (interp_with_jitter (rows.map Row.hr) a (some (40, 220)) s1).length := by
    rw [interp_length, List.length_map]
  have hc : rows.length ≤
      (if c > 0 then
        extraCad (rows.map Row.cad)
          (interp_with_jitter (rows.map Row.cad) b (some (0, 200)) s2) s3
       else interp_with_jitter (rows.map Row.cad) b (some (0, 200)) s2).length := by
    split_ifs
    · rw [extraCad_length, interp_length, List.length_map]
    · rw [interp_length, List.length_map]
  exact reassembleHC_spec rows _ _ hh hc

/-- Witness for `c9_frame` at a concrete input. -/
theorem c9_witness :
    (fill_missing_hr_and_cadence [Row.mk 0 (some 100) none (some 3)] 1 2 0
        (fun _ => 0) (fun _ => 0) (fun _ => 0)).length =
      ([Row.mk 0 (some 100) none (some 3)] : List Row).length ∧
    ∀ (i : ℕ)
      (h1 : i < (fill_missing_hr_and_cadence [Row.mk 0 (some 100) none (some 3)] 1 2 0
        (fun _ => 0) (fun _ => 0) (fun _ => 0)).length)
      (h2 : i < ([Row.mk 0 (some 100) none (some 3)] : List Row).length),
      ((fill_missing_hr_and_cadence [Row.mk 0 (some 100) none (some 3)] 1 2 0
        (fun _ => 0) (fun _ => 0) (fun _ => 0)).get ⟨i, h1⟩).ts =
        (([Row.mk 0 (some 100) none (some 3)] : List Row).get ⟨i, h2⟩).ts ∧
      ((fill_missing_hr_and_cadence [Row.mk 0 (some 100) none (some 3)] 1 2 0
        (fun _ => 0) (fun _ => 0) (fun _ => 0)).get ⟨i, h1⟩).spd =
        (([Row.mk 0 (some 100) none (some 3)] : List Row).get ⟨i, h2⟩).spd :=
  c9_frame [Row.mk 0 (some 100) none (some 3)] 1 2 0 (fun _ => 0) (fun _ => 0) (fun _ => 0)

theorem pyRound_int (z : ℤ) : pyRound (z : ℚ) = z := by
  rw [pyRound, Int.floor_intCast]
  rw [if_pos (by norm_num)]

theorem getD_optMap :
    ∀ (vals : List (Option ℤ)) (i : ℕ),
      (vals.map (Option.map (fun z : ℤ => (z:ℚ)))).getD i none =
        (vals.getD i none).map (fun z : ℤ => (z:ℚ)) := by
  intro vals
  induction vals with
  | nil => intro i; cases i <;> rfl
  | cons x xs ih =>
    intro i
    cases i with
    | zero => rfl
    | succ i => simpa using ih i

/-! ## Claim C4 -/

/-- C4, counterexample: with bounds supplied, the zero-jitter interior
fill is **clamped before rounding**, so it is not always plain linear
interpolation: on `[10, None, 20]` with bounds `(0, 12)` the code emits
`12` at the middle position while the claimed linear interpolation
predicts `15`. -/
theorem c4_counterexample :
    interp_with_jitter [some 10, none, some 20] 0 (some (0, 12)) (fun _ => 0) ≠
      [10, pyRound ((10:ℚ) + ((20:ℚ) - 10) * ((1:ℚ) - 0) / ((2:ℚ) - 0)), 20] := by
  have h1 : interp_with_jitter [some 10, none, some 20] 0 (some (0, 12)) (fun _ => 0)
      = [10, 12, 20] := by
    norm_num [interp_with_jitter, knownIdx, interpBase, nonesBefore, clampB, pyRound,
      List.getD, List.range_succ]
    intro hcon
    exact absurd hcon (by decide)
  have h2 : pyRound ((10:ℚ) + ((20:ℚ) - 10) * ((1:ℚ) - 0) / ((2:ℚ) - 0)) = 15 := by
    norm_num [pyRound]
  rw [h1, h2]
  decide

/-- C4, amended: for every input sequence of optional integer values with
at least one known value, every jitter amplitude, bounds and draw stream,
the gap-filler emits at each anchor position exactly the original known
value (no jitter and no clamping at anchors); with zero jitter each
non-anchor position is filled with its hold/linear-interpolation base
value clamped to the bounds (when given) and rounded — in particular
`[10, None, None, 20]` with zero jitter and no bounds yields
`[10, 13, 17, 20]`. -/
theorem c4_amended :
    (∀ (vals : List (Option ℤ)) (amp : ℚ) (bounds : Option (ℚ × ℚ)) (stream : ℕ → ℚ)
        (i : ℕ) (v : ℤ), vals.getD i none = some v →
        (interp_with_jitter (vals.map (Option.map (fun z : ℤ => (z:ℚ)))) amp bounds
          stream).getD i 0 = v) ∧
    (∀ (vals : List (Option ℚ)) (bounds : Option (ℚ × ℚ)) (stream : ℕ → ℚ) (i : ℕ),
        (∀ n, -0 ≤ stream n ∧ stream n ≤ 0) →
        knownIdx vals ≠ [] → i < vals.length → vals.getD i none = none →
        (interp_with_jitter vals 0 bounds stream).getD i 0 =
          pyRound (clampB bounds (interpBase vals i))) ∧
    (∀ stream : ℕ → ℚ, (∀ n, -0 ≤ stream n ∧ stream n ≤ 0) →
        interp_with_jitter [some 10, none, none, some 20] 0 none stream =
          [10, 13, 17, 20]) := by
  refine ⟨?_, ?_, ?_⟩
  · intro vals amp bounds stream i v hv
    have hi : i < vals.length := by
      by_contra hcon
      push_neg at hcon
      rw [List.getD_eq_default _ _ hcon] at hv
      exact absurd hv (by simp)
    have hQ : (vals.map (Option.map (fun z : ℤ => (z:ℚ)))).getD i none = some ((v:ℤ):ℚ) := by
      rw [getD_optMap, hv]; rfl
    have hmem : i ∈ knownIdx (vals.map (Option.map (fun z : ℤ => (z:ℚ)))) := by
      rw [knownIdx]
      refine List.mem_filter.2 ⟨List.mem_range.2 ?_, ?_⟩
      · rw [List.length_map]; exact hi
      · rw [hQ]; rfl
    rw [interp_with_jitter, if_neg (List.ne_nil_of_mem hmem)]
    rw [List.getD_eq_getElem _ _
      (by rw [List.length_map, List.length_range, List.length_map]; exact hi)]
    rw [List.getElem_map, List.getElem_range, hQ]
    exact pyRound_int v
  · intro vals bounds stream i hs hne hi hnone
    have hz : stream (nonesBefore vals i) = 0 :=
      le_antisymm (hs _).2 (by simpa using (hs _).1)
    rw [interp_with_jitter, if_neg hne]
    rw [List.getD_eq_getElem _ _ (by rw [List.length_map, List.length_range]; exact hi)]
    rw [List.getElem_map, List.getElem_range, hnone, hz, add_zero]
  · intro stream hs
    have hz : ∀ n, stream n = 0 := fun n =>
      le_antisymm (hs n).2 (by simpa using (hs n).1)
    have hf1 : Int.fract ((40:ℚ)/3) = 1/3 := by
      rw [Int.fract]
      norm_num
    have hf2 : Int.fract ((50:ℚ)/3) = 2/3 := by
      rw [Int.fract]
      norm_num
    norm_num [interp_with_jitter, knownIdx, interpBase, nonesBefore, clampB, pyRound,
      List.getD, List.range_succ, hz, hf1, hf2]
    intro hcon
    exact absurd hcon (by decide)

/-- Witness for `c4_amended` at concrete inputs. -/
theorem c4_witness :
    (([some (3:ℤ), none, some 7] : List (Option ℤ)).getD 0 none = some 3 ∧
      (interp_with_jitter (([some (3:ℤ), none, some 7] : List (Option ℤ)).map
        (Option.map (fun z : ℤ => (z:ℚ)))) 1 (some (0, 200)) (fun _ => 0)).getD 0 0 = 3) ∧
    ((interp_with_jitter [some (10:ℚ), none, some 20] 0 none (fun _ => 0)).getD 1 0 =
      pyRound (clampB none (interpBase [some (10:ℚ), none, some 20] 1))) ∧
    interp_with_jitter [some 10, none, none, some 20] 0 none (fun _ : ℕ => (0:ℚ)) =
      [10, 13, 17, 20] := by
  refine ⟨⟨by decide, ?_⟩, ?_, ?_⟩
  · exact c4_amended.1 [some (3:ℤ), none, some 7] 1 (some (0, 200)) (fun _ => 0) 0 3
      (by decide)
  · exact c4_amended.2.1 [some (10:ℚ), none, some 20] none (fun _ => 0) 1
      (fun n => ⟨by norm_num, le_refl 0⟩) (by decide) (by decide) (by decide)
  · exact c4_amended.2.2 (fun _ => 0) (fun n => ⟨by norm_num, le_refl 0⟩)

/-! ## Claim C10 -/

theorem kcalLoop_zip :
    ∀ (rest : List (ℚ × ℚ)) (first : ℚ × ℚ),
      kcalLoop first rest =
        (((first :: rest).zip rest).map (fun pr => max pr.1.2 0 * (pr.2.1 - pr.1.1))).sum := by
  intro rest
  induction rest with
  | nil => intro first; obtain ⟨pt, pp⟩ := first; rw [kcalLoop]; simp
  | cons x rest' ih =>
    intro first
    obtain ⟨pt, pp⟩ := first
    rw [kcalLoop, List.zip_cons_cons, List.map_cons, List.sum_cons, ih x]

theorem kcalLoop_last_free :
    ∀ (xs : List (ℚ × ℚ)) (st : ℚ × ℚ) (t p q : ℚ),
      kcalLoop st (xs ++ [(t, p)]) = kcalLoop st (xs ++ [(t, q)]) := by
  intro xs
  induction xs with
  | nil =>
    intro st t p q
    obtain ⟨pt, pp⟩ := st
    rw [List.nil_append, List.nil_append, kcalLoop, kcalLoop, kcalLoop, kcalLoop]
  | cons x xs' ih =>
    intro st t p q
    obtain ⟨pt, pp⟩ := st
    rw [List.cons_append, List.cons_append, kcalLoop, kcalLoop, ih x]

/-- C10: `estimate_kcal` integrates each inter-timestamp interval with the
power stored at the interval's left endpoint (`Σ max(p_i, 0) (t_{i+1} -
t_i)` over consecutive pairs); hence the power recorded at the final
(maximal) timestamp never influences the result, and any map with fewer
than two entries yields exactly 0 kcal. -/
theorem c10_kcal :
    (∀ (first : ℚ × ℚ) (rest : List (ℚ × ℚ)) (eff : ℚ),
        estimate_kcal (first :: rest) eff =
          pyRound ((((first :: rest).zip rest).map
            (fun pr => max pr.1.2 0 * (pr.2.1 - pr.1.1))).sum / 1000 / eff / (4184/1000))) ∧
    (∀ (xs : List (ℚ × ℚ)) (t p q eff : ℚ), (∀ s ∈ xs, s.1 < t) →
        estimate_kcal (xs ++ [(t, p)]) eff = estimate_kcal (xs ++ [(t, q)]) eff) ∧
    (∀ (items : List (ℚ × ℚ)) (eff : ℚ), items.length < 2 → estimate_kcal items eff = 0) := by
  refine ⟨?_, ?_, ?_⟩
  · intro first rest eff
    rw [estimate_kcal, kcalLoop_zip]
  · intro xs t p q eff _
    match xs with
    | [] => rfl
    | x :: xs' =>
      rw [List.cons_append, List.cons_append, estimate_kcal, estimate_kcal,
        kcalLoop_last_free]
  · intro items eff hlen
    match items with
    | [] => rfl
    | [x] =>
      obtain ⟨pt, pp⟩ := x
      rw [estimate_kcal, kcalLoop]
      norm_num [pyRound]
    | x :: y :: rest => exact absurd hlen (by simp)

/-- Witness for `c10_kcal` at concrete inputs. -/
theorem c10_witness :
    (estimate_kcal [((0:ℚ), (100:ℚ)), ((10:ℚ), (7:ℚ))] (6/25) =
      pyRound (((([((0:ℚ), (100:ℚ)), ((10:ℚ), (7:ℚ))]).zip [((10:ℚ), (7:ℚ))]).map
        (fun pr => max pr.1.2 0 * (pr.2.1 - pr.1.1))).sum / 1000 / (6/25) / (4184/1000))) ∧
    ((∀ s ∈ [((0:ℚ), (100:ℚ))], s.1 < 10) ∧
      estimate_kcal ([((0:ℚ), (100:ℚ))] ++ [((10:ℚ), (5:ℚ))]) (6/25) =
        estimate_kcal ([((0:ℚ), (100:ℚ))] ++ [((10:ℚ), (9:ℚ))]) (6/25)) ∧
    (([((0:ℚ), (100:ℚ))] : List (ℚ × ℚ)).length < 2 ∧
      estimate_kcal [((0:ℚ), (100:ℚ))] (6/25) = 0) :=
  ⟨c10_kcal.1 (0, 100) [(10, 7)] (6/25),
   ⟨by simp, c10_kcal.2.1 [((0:ℚ), (100:ℚ))] 10 5 9 (6/25) (by simp)⟩,
   ⟨by simp, c10_kcal.2.2 [((0:ℚ), (100:ℚ))] (6/25) (by simp)⟩⟩

/-! ## Claim C8 -/

theorem csumFrom_getD :
    ∀ (P : List ℚ) (a : ℚ) (k : ℕ), k ≤ P.length →
      (csumFrom a P).getD k 0 = a + (P.take k).sum := by
  intro P
  induction P with
  | nil =>
    intro a k hk
    obtain rfl : k = 0 := by simpa using hk
    rw [csumFrom]
    simp
  | cons x xs ih =>
    intro a k hk
    match k with
    | 0 => rw [csumFrom]; simp
    | k + 1 =>
      rw [csumFrom]
      have hk' : k ≤ xs.length := by simpa using hk
      calc ((a :: csumFrom (a + x) xs).getD (k+1) 0) = (csumFrom (a + x) xs).getD k 0 := rfl
        _ = (a + x) + (xs.take k).sum := ih (a + x) k hk'
        _ = a + (((x :: xs).take (k+1)).sum) := by rw [List.take_succ_cons]; simp; ring

theorem window_sum (P : List ℚ) (k w : ℕ) (h : k + w ≤ P.length) :
    (P.take (k + w)).sum - (P.take k).sum = ((P.drop k).take w).sum := by
  rw [List.take_add, List.sum_append]
  ring

theorem roll_eq_windowMeans (P : List ℚ) (w : ℕ) :
    rollList P w = windowMeans P w := by
  rw [rollList, windowMeans]
  refine List.map_congr_left ?_
  intro k hk
  have hk1 : k < P.length + 1 - w := List.mem_range.1 hk
  have hk' : k + w ≤ P.length := by omega
  rw [csumFrom_getD P 0 (k + w) hk', csumFrom_getD P 0 k (by omega), zero_add, zero_add,
    window_sum P k w hk']

/-- C8: for every non-empty Time-to-Power Map, the best-20-minute power of
`compute_np_if_tss_and_p20` — the prefix-sum sliding-window formula of the
code — equals the maximum mean over all contiguous 1200-second windows of
the 1-second resampled array, falling back to the whole-array mean when
the array is shorter than 1200 s. -/
theorem c8_best20 (items : List (ℚ × ℚ)) (hne : items ≠ []) :
    best20 items = best20Spec items := by
  rw [best20, best20Spec]
  by_cases h0 : (power1s items).length = 0
  · rw [if_pos h0, if_pos (by omega : (power1s items).length < 1200)]
    have hnil : power1s items = [] := List.length_eq_zero.1 h0
    rw [hnil, meanQ]
    norm_num
  · rw [if_neg h0]
    by_cases h1 : (power1s items).length < 1200
    · rw [if_pos h1, if_pos h1]
    · rw [if_neg h1, if_neg h1, roll_eq_windowMeans]

/-- Witness for `c8_best20` at a concrete input. -/
theorem c8_witness :
    ([((0:ℚ), (5:ℚ))] : List (ℚ × ℚ)) ≠ [] ∧
      best20 [((0:ℚ), (5:ℚ))] = best20Spec [((0:ℚ), (5:ℚ))] :=
  ⟨by simp, c8_best20 [((0:ℚ), (5:ℚ))] (by simp)⟩
